import Mathlib

/-
Verification development for the Provider Orchestration and Resilience Core
of the ImageForMeDearAi repository (TypeScript sources).

The TypeScript sources are shallowly embedded as executable Lean functions:
  - BaseImageProvider.validateRequest / executeWithRetry / isClientError /
    sanitizePrompt (src baseProvider),
  - ChatGPTProvider.generateImage validation-before-network structure
    (src chatGptProvider),
  - ProviderManager.getAvailableProviders / getBestProvider / generateImage /
    getFallbackProvider (src/providers/providerManager.ts),
  - ImageGenerationError.isRetryableByCode (src errorHandler),
  - the Result Cache (modelled from the spec; its implementation file is not
    among the provided sources).
Asynchrony is modelled by making each attempt of an operation a function of
the attempt number returning an Except value; the timeout race of
executeWithRetry is absorbed into that outcome (a timeout surfaces as an
error value with code TIMEOUT).  Retries, sleeps and provider invocations
are made observable through explicit traces (invocation counts, delay lists,
lists of invoked provider names).
-/

namespace ImageForMe

/-- Provider errors as thrown by BaseImageProvider.createError and by the
underlying HTTP clients: an error code, a message, an optional HTTP response
status, and optionally a wrapped inner error (the lastError detail of
OPERATION_FAILED). -/
inductive PErr : Type where
  | mk (code : String) (message : String) (status : Option Nat)
      (details : Option PErr) : PErr

/-- Error code accessor. -/
def PErr.code : PErr → String
  | .mk c _ _ _ => c

/-- Error message accessor. -/
def PErr.message : PErr → String
  | .mk _ m _ _ => m

/-- HTTP response status accessor (error.response.status in the source). -/
def PErr.status : PErr → Option Nat
  | .mk _ _ s _ => s

/-- Wrapped inner error accessor (the details.lastError of the source). -/
def PErr.details : PErr → Option PErr
  | .mk _ _ _ d => d

/-- BaseImageProvider.createError: provider-specific error without HTTP
status and without wrapped details. -/
def createError (code message : String) : PErr :=
  .mk code message none none

/-- ImageGenerationError.isRetryableByCode (src errorHandler): the
taxonomy's single retryable set. -/
def isRetryableByCode (code : String) : Bool :=
  ["TIMEOUT", "SERVICE_UNAVAILABLE", "NETWORK_ERROR",
   "RATE_LIMIT_EXCEEDED"].contains code

/-- BaseImageProvider.isClientError: HTTP 4xx response status, or one of the
five explicitly non-retryable codes.  This is the predicate the retry loop
actually consults. -/
def isClientError (e : PErr) : Bool :=
  (match e.status with
   | some st => decide (400 ≤ st) && decide (st < 500)
   | none => false)
  ||
  (["INVALID_REQUEST", "AUTHENTICATION_FAILED", "PERMISSION_DENIED",
    "QUOTA_EXCEEDED", "CONTENT_POLICY_VIOLATION"].contains e.code)

/-- The OPERATION_FAILED error thrown by executeWithRetry after the loop is
exhausted, wrapping the last error. -/
def opFailedErr (operationName : String) (retryAttempts : Nat)
    (lastError : Option PErr) : PErr :=
  .mk "OPERATION_FAILED"
    ("Failed to " ++ operationName ++ " after " ++ toString retryAttempts
      ++ " attempts")
    none lastError

/-- Observable trace of one executeWithRetry run: the final outcome, how
many times the wrapped operation was invoked, and the list of back-off
sleeps (milliseconds) performed between attempts, in order. -/
structure RetryTrace (α : Type) where
  result : Except PErr α
  calls : Nat
  delays : List Nat

/-- The loop body of BaseImageProvider.executeWithRetry.  attempt is the
1-based attempt counter, left the number of loop iterations remaining
(initially retryAttempts, so left = retryAttempts - attempt + 1 throughout).
On failure: client errors are rethrown at once; otherwise if attempts remain
the loop sleeps retryDelay * 2 ^ (attempt - 1) and retries, and when the
loop is exhausted it throws OPERATION_FAILED wrapping the last error. -/
def ewrAux {α : Type} (op : Nat → Except PErr α) (operationName : String)
    (retryAttempts retryDelay : Nat) : Nat → Nat → RetryTrace α
  | _, 0 => ⟨.error (opFailedErr operationName retryAttempts none), 0, []⟩
  | attempt, left + 1 =>
    match op attempt with
    | .ok v => ⟨.ok v, 1, []⟩
    | .error e =>
      if isClientError e then ⟨.error e, 1, []⟩
      else if left = 0 then
        ⟨.error (opFailedErr operationName retryAttempts (some e)), 1, []⟩
      else
        let t := ewrAux op operationName retryAttempts retryDelay
          (attempt + 1) left
        ⟨t.result, t.calls + 1, (retryDelay * 2 ^ (attempt - 1)) :: t.delays⟩

/-- BaseImageProvider.executeWithRetry with the constructor-fixed policy
retryAttempts = 3 and retryDelay = 1000 ms. -/
def executeWithRetry {α : Type} (op : Nat → Except PErr α)
    (operationName : String) : RetryTrace α :=
  ewrAux op operationName 3 1000 1 3

/-- A client error on the current attempt stops the loop at once: one
invocation and the error is rethrown unchanged. -/
theorem ewrAux_client_stop {α : Type} (op : Nat → Except PErr α)
    (operationName : String) (N d attempt left : Nat) (e : PErr)
    (hop : op attempt = .error e) (hce : isClientError e = true) :
    ewrAux op operationName N d attempt (left + 1) = ⟨.error e, 1, []⟩ := by
  simp [ewrAux, hop, hce]

/-- Every run of the loop with at least one iteration invokes the operation
at least once. -/
theorem ewrAux_calls_pos {α : Type} (op : Nat → Except PErr α)
    (operationName : String) (N d attempt left : Nat) :
    1 ≤ (ewrAux op operationName N d attempt (left + 1)).calls := by
  cases hop : op attempt with
  | ok v => simp [ewrAux, hop]
  | error e =>
    by_cases hce : isClientError e = true
    · simp [ewrAux, hop, hce]
    · by_cases hl : left = 0
      · simp [ewrAux, hop, hce, hl]
      · simp [ewrAux, hop, hce, hl]

/-- JS word character for the regex \w and the word boundary \b used by the
sanitizer patterns: ASCII letter, ASCII digit or underscore. -/
def wordCharB (c : Char) : Bool :=
  (decide ('a' ≤ c) && decide (c ≤ 'z')) ||
  (decide ('A' ≤ c) && decide (c ≤ 'Z')) ||
  (decide ('0' ≤ c) && decide (c ≤ '9')) ||
  (c == '_')

/-- JS whitespace for the regex \s and for String.prototype.trim. -/
def jsSpaceB (c : Char) : Bool :=
  (c == ' ') || (c == '\t') || (c == '\n') || (c == '\r') ||
  (c == '\x0b') || (c == '\x0c') || (c == '\u00A0') ||
  (c == '\u2028') || (c == '\u2029') || (c == '\uFEFF')

/-- ASCII case canonicalization used to model the i regex flag: uppercase
ASCII letters are mapped to their lowercase pair, everything else is kept. -/
def deCap : Char → Char
  | 'A' => 'a' | 'B' => 'b' | 'C' => 'c' | 'D' => 'd' | 'E' => 'e'
  | 'F' => 'f' | 'G' => 'g' | 'H' => 'h' | 'I' => 'i' | 'J' => 'j'
  | 'K' => 'k' | 'L' => 'l' | 'M' => 'm' | 'N' => 'n' | 'O' => 'o'
  | 'P' => 'p' | 'Q' => 'q' | 'R' => 'r' | 'S' => 's' | 'T' => 't'
  | 'U' => 'u' | 'V' => 'v' | 'W' => 'w' | 'X' => 'x' | 'Y' => 'y'
  | 'Z' => 'z'
  | c => c

/-- String.prototype.trim, left side: drop leading whitespace. -/
def trimL (s : List Char) : List Char := s.dropWhile jsSpaceB

/-- String.prototype.trim, right side: drop trailing whitespace. -/
def trimR (s : List Char) : List Char :=
  (s.reverse.dropWhile jsSpaceB).reverse

/-- String.prototype.trim: drop whitespace at both ends. -/
def jsTrim (s : List Char) : List Char := trimR (trimL s)

/-- Scanner for s.replace of the whitespace-run regex by a single space:
ps records whether the previous character was whitespace (i.e. whether we
are inside a run that already emitted its single space). -/
def collapseAux : Bool → List Char → List Char
  | _, [] => []
  | ps, c :: cs =>
    if jsSpaceB c then
      if ps then collapseAux true cs else ' ' :: collapseAux true cs
    else c :: collapseAux false cs

/-- s.replace of one-or-more whitespace by a single space. -/
def collapseWS (s : List Char) : List Char := collapseAux false s

/-- The image generation request shape relevant to the core (src types):
only the fields the validator, the sanitizer, the providers and the cache
consult.  count is an Int so that the JS truthiness test on it (0 is falsy)
can be modelled faithfully. -/
structure ImageGenerationRequest where
  prompt : List Char
  style : Option String
  dimensions : Option (Nat × Nat)
  quality : Option String
  count : Option Int
  format : Option String
  transparent : Bool
deriving DecidableEq

/-- A normalized generation result (src types ImageGenerationResult):
success flag, opaque image tokens, the provider that produced it, a request
id and an optional error string. -/
structure ImageGenerationResult where
  success : Bool
  images : List String
  provider : String
  requestId : String
  error : Option String
deriving DecidableEq

/-- The count check of validateRequest, with the JS truthiness guard
(request.count && ...): a count of 0 is falsy and the range check is
skipped. -/
def validateCount (request : ImageGenerationRequest) : Option PErr :=
  match request.count with
  | some k =>
    if k ≠ 0 ∧ (k < 1 ∨ k > 10) then
      some (createError "INVALID_REQUEST" "Count must be between 1 and 10")
    else none
  | none => none

/-- The dimension bounds and aspect-ratio check of validateRequest.  The
JS float comparisons width/height < 0.25 and width/height > 4 are exact
for the integer dimensions involved, so they are modelled by the
equivalent integer comparisons. -/
def validateDims (request : ImageGenerationRequest) : Option PErr :=
  match request.dimensions with
  | some (w, h) =>
    if w < 64 ∨ w > 2048 ∨ h < 64 ∨ h > 2048 then
      some (createError "INVALID_REQUEST"
        "Dimensions must be between 64x64 and 2048x2048")
    else if 4 * w < h ∨ w > 4 * h then
      some (createError "INVALID_REQUEST"
        "Invalid aspect ratio (must be between 1:4 and 4:1)")
    else none
  | none => none

/-- BaseImageProvider.validateRequest: returns the first validation error
thrown, or none when the request passes. -/
def validateRequest (request : ImageGenerationRequest) : Option PErr :=
  if request.prompt = [] ∨ jsTrim request.prompt = [] then
    some (createError "INVALID_REQUEST" "Prompt is required")
  else if request.prompt.length > 4000 then
    some (createError "INVALID_REQUEST"
      "Prompt is too long (max 4000 characters)")
  else
    match validateCount request with
    | some e => some e
    | none => validateDims request

/-- ChatGPTProvider.generateImage, up to the granularity the claims need:
the configured-client guard, then validateRequest, then executeWithRetry
around the backend operation (DALL-E call plus download and normalization,
abstracted as backend).  Returns the outcome together with the number of
times the wrapped backend operation was invoked (each invocation makes
network calls). -/
def chatGptGenerateImage (configured : Bool)
    (request : ImageGenerationRequest)
    (backend : Nat → Except PErr ImageGenerationResult) :
    Except PErr ImageGenerationResult × Nat :=
  if configured = false then
    (.error (createError "PROVIDER_NOT_CONFIGURED"
      "ChatGPT provider is not configured"), 0)
  else
    match validateRequest request with
    | some e => (.error e, 0)
    | none =>
      let t := executeWithRetry backend "generate image"
      (t.result, t.calls)

/-- The feature argument of ProviderManager.getBestProvider (its TypeScript
union type: generation, description, tagging, logo). -/
inductive Feature : Type where
  | generation
  | description
  | tagging
  | logo
deriving DecidableEq

/-- A backend adapter as the manager sees it: its registry name, the result
of its isAvailable probe (the concrete providers never throw there: probe
failures resolve to false), its supportsFeature table and its generateImage
behavior (Except.error models a thrown error). -/
structure Provider where
  name : String
  available : Bool
  features : Feature → Bool
  generate : ImageGenerationRequest → Except PErr ImageGenerationResult

/-- The manager's registry, in Map insertion order. -/
def Registry : Type := List Provider

/-- ProviderManager.getProvider: lookup by name. -/
def getProvider (pm : List Provider) (name : String) : Option Provider :=
  pm.find? (fun p => p.name == name)

/-- ProviderManager.getAvailableProviders: the registry filtered by the
isAvailable probe, in registry order. -/
def getAvailableProviders (pm : List Provider) : List Provider :=
  pm.filter (fun p => p.available)

/-- The fixed per-feature priority table of ProviderManager.getBestProvider. -/
def priorities : Feature → List String
  | .generation => ["chatgpt", "huggingface"]
  | .description => ["chatgpt", "huggingface"]
  | .tagging => ["huggingface", "chatgpt"]
  | .logo => ["chatgpt", "huggingface"]

/-- The priority loop of getBestProvider: first provider in the supporting
list whose name is the first priority name present, else the first
supporting provider. -/
def firstByPriority : List String → List Provider → Option Provider
  | [], supporting => supporting.head?
  | n :: rest, supporting =>
    match supporting.find? (fun p => p.name == n) with
    | some p => some p
    | none => firstByPriority rest supporting

/-- The available providers that support a feature, in registry order. -/
def supportingProviders (pm : List Provider) (f : Feature) : List Provider :=
  (getAvailableProviders pm).filter (fun p => p.features f)

/-- ProviderManager.getBestProvider. -/
def getBestProvider (pm : List Provider) (f : Feature) : Option Provider :=
  match supportingProviders pm f with
  | [] => none
  | s => firstByPriority (priorities f) s

/-- ProviderManager.getFallbackProvider: the first available provider whose
name differs from the failed one and that supports the feature. -/
def getFallbackProvider (pm : List Provider) (failedName : String)
    (f : Feature) : Option Provider :=
  (getAvailableProviders pm).find?
    (fun p => (!(p.name == failedName)) && p.features f)

/-- The error string used by ProviderManager.generateImage on failure:
error.message with the JS falsy-string fallback. -/
def managerErrMsg (e : PErr) : String :=
  if e.message = "" then "Image generation failed" else e.message

/-- The failed result ProviderManager.generateImage returns when no
provider is available at all. -/
def noProviderResult : ImageGenerationResult :=
  ⟨false, [], "none", "", some "No available providers for image generation"⟩

/-- The provider-selection part of ProviderManager.generateImage: the
preferred provider is used when present in the registry and available (its
capabilities are not consulted); otherwise the best provider for logo (for
transparent requests) or generation is selected. -/
def selectedProvider (pm : List Provider)
    (request : ImageGenerationRequest) (preferred : Option String) :
    Option Provider :=
  let prefProvider : Option Provider :=
    match preferred with
    | none => none
    | some name =>
      match getProvider pm name with
      | some p => if p.available then some p else none
      | none => none
  match prefProvider with
  | some p => some p
  | none =>
    getBestProvider pm
      (if request.transparent then Feature.logo else Feature.generation)

/-- The invocation part of ProviderManager.generateImage: call the selected
provider; on a thrown error look up one fallback — with the feature
hardcoded to generation — and invoke it at most once; on a double failure
report the primary error and provider. -/
def invokeWithFallback (pm : List Provider)
    (request : ImageGenerationRequest) (p : Provider) :
    ImageGenerationResult × List String :=
  match p.generate request with
  | .ok r => (r, [p.name])
  | .error e =>
    match getFallbackProvider pm p.name Feature.generation with
    | some q =>
      match q.generate request with
      | .ok r => (r, [p.name, q.name])
      | .error _ =>
        (⟨false, [], p.name, "", some (managerErrMsg e)⟩, [p.name, q.name])
    | none =>
      (⟨false, [], p.name, "", some (managerErrMsg e)⟩, [p.name])

/-- ProviderManager.generateImage, with an explicit trace of the names of
the providers whose generateImage was invoked, in order.  Every branch
returns a result, nothing is rethrown. -/
def managerGenerateImage (pm : List Provider)
    (request : ImageGenerationRequest) (preferred : Option String) :
    ImageGenerationResult × List String :=
  match selectedProvider pm request preferred with
  | none => (noProviderResult, [])
  | some p => invokeWithFallback pm request p

/-- Modelled from the spec: the Result Cache entry (the imageCache
implementation file is not among the provided sources; only its call sites
are).  A fingerprint — here the semantically relevant request itself, which
is exactly the fingerprint's information content — with the stored result
and its stamps. -/
structure CacheEntry where
  fp : ImageGenerationRequest
  result : ImageGenerationResult
  createdAt : Nat
  expiresAt : Nat

/-- Modelled from the spec: cache.set inserts or overwrites the entry for
the fingerprint and stamps expiresAt = createdAt + TTL; at most one live
entry per fingerprint is kept. -/
def cacheSet (c : List CacheEntry) (now ttl : Nat)
    (request : ImageGenerationRequest) (result : ImageGenerationResult) :
    List CacheEntry :=
  ⟨request, result, now, now + ttl⟩ ::
    c.filter (fun e => !(decide (e.fp = request)))

/-- Modelled from the spec: cache.get returns the live entry if present and
not past its expiresAt, absent otherwise; it is a total function, so it
never throws. -/
def cacheGet (c : List CacheEntry) (now : Nat)
    (request : ImageGenerationRequest) : Option ImageGenerationResult :=
  match c.find? (fun e => decide (e.fp = request)) with
  | some e => if now ≤ e.expiresAt then some e.result else none
  | none => none

/-- The word boundary \b after a match: end of input or a non-word
character (every denylist keyword ends in a word character). -/
def boundaryAfter : List Char → Bool
  | [] => true
  | c :: _ => !wordCharB c

/-- Case-insensitive literal matching of a keyword against the front of the
input; returns the rest of the input after the match. -/
def ciMatch : List Char → List Char → Option (List Char)
  | [], s => some s
  | _ :: _, [] => none
  | k :: ks, c :: cs => if deCap c = k then ciMatch ks cs else none

/-- One alternative of a denylist pattern matched at the current position,
including the trailing word boundary (the leading boundary is checked by
the scanner).  Empty keywords never match. -/
def tryKw (kw s : List Char) : Option (List Char) :=
  match kw with
  | [] => none
  | _ :: _ =>
    match ciMatch kw s with
    | some r => if boundaryAfter r then some r else none
    | none => none

/-- The alternation of a denylist pattern at the current position: the
alternatives share no prefixes, so order is irrelevant and the first match
is the match. -/
def tryKws (kws : List (List Char)) (s : List Char) : Option (List Char) :=
  match kws with
  | [] => none
  | kw :: rest =>
    match tryKw kw s with
    | some r => some r
    | none => tryKws rest s

theorem ciMatch_length {kw s r : List Char} (h : ciMatch kw s = some r) :
    s.length = kw.length + r.length := by
  induction kw generalizing s with
  | nil =>
    simp only [ciMatch, Option.some.injEq] at h
    simp [← h]
  | cons k ks ih =>
    cases s with
    | nil => simp [ciMatch] at h
    | cons c cs =>
      simp only [ciMatch] at h
      by_cases hc : deCap c = k
      · simp only [hc, if_pos rfl] at h
        have := ih h
        simp [this]
        omega
      · simp [hc] at h

theorem ciMatch_decompose {kw s r : List Char} (h : ciMatch kw s = some r) :
    ∃ pre, s = pre ++ r ∧ pre.length = kw.length := by
  induction kw generalizing s with
  | nil =>
    simp only [ciMatch, Option.some.injEq] at h
    exact ⟨[], by simp [h], rfl⟩
  | cons k ks ih =>
    cases s with
    | nil => simp [ciMatch] at h
    | cons c cs =>
      simp only [ciMatch] at h
      by_cases hc : deCap c = k
      · simp only [hc, if_pos rfl] at h
        obtain ⟨pre, hpre, hlen⟩ := ih h
        exact ⟨c :: pre, by simp [hpre], by simp [hlen]⟩
      · simp [hc] at h

theorem tryKw_eq_some {kw s r : List Char} (h : tryKw kw s = some r) :
    kw ≠ [] ∧ ciMatch kw s = some r ∧ boundaryAfter r = true := by
  cases kw with
  | nil => simp [tryKw] at h
  | cons k ks =>
    simp only [tryKw] at h
    cases hm : ciMatch (k :: ks) s with
    | none => simp [hm] at h
    | some r2 =>
      simp only [hm] at h
      by_cases hb : boundaryAfter r2 = true
      · rw [if_pos hb] at h
        injection h with h
        subst h
        exact ⟨by simp, rfl, hb⟩
      · simp [hb] at h

theorem tryKw_length {kw s r : List Char} (h : tryKw kw s = some r) :
    r.length < s.length := by
  obtain ⟨hne, hm, _⟩ := tryKw_eq_some h
  have := ciMatch_length hm
  cases kw with
  | nil => exact absurd rfl hne
  | cons k ks => simp at this; omega

theorem tryKws_eq_some {kws : List (List Char)} {s r : List Char}
    (h : tryKws kws s = some r) : ∃ kw ∈ kws, tryKw kw s = some r := by
  induction kws with
  | nil => simp [tryKws] at h
  | cons kw rest ih =>
    simp only [tryKws] at h
    cases hk : tryKw kw s with
    | some r2 =>
      simp only [hk, Option.some.injEq] at h
      exact ⟨kw, by simp, by simp [hk, h]⟩
    | none =>
      simp only [hk] at h
      obtain ⟨kw2, hmem, hk2⟩ := ih h
      exact ⟨kw2, by simp [hmem], hk2⟩

theorem tryKws_length {kws : List (List Char)} {s r : List Char}
    (h : tryKws kws s = some r) : r.length < s.length := by
  obtain ⟨kw, _, hk⟩ := tryKws_eq_some h
  exact tryKw_length hk

theorem tryKws_eq_none {kws : List (List Char)} {s : List Char}
    (h : tryKws kws s = none) : ∀ kw ∈ kws, tryKw kw s = none := by
  induction kws with
  | nil => simp
  | cons kw rest ih =>
    simp only [tryKws] at h
    cases hk : tryKw kw s with
    | some r2 => simp [hk] at h
    | none =>
      simp only [hk] at h
      intro kw2 hmem
      rcases List.mem_cons.mp hmem with h2 | h2
      · exact h2 ▸ hk
      · exact ih h kw2 h2

/-- The single pass of s.replace(pattern, quote) over the input for one
denylist pattern: w records whether the previous character of the original
string is a word character (so that the leading \b of a match can be
decided locally); matched regions are skipped entirely, scanning resumes
after them with w = true since every keyword ends in a word character. -/
def removeAux (kws : List (List Char)) (w : Bool) (s : List Char) :
    List Char :=
  match s with
  | [] => []
  | c :: cs =>
    if w = true then c :: removeAux kws (wordCharB c) cs
    else
      match h : tryKws kws (c :: cs) with
      | some rest => removeAux kws true rest
      | none => c :: removeAux kws (wordCharB c) cs
termination_by s.length
decreasing_by
  · simp
  · simpa using tryKws_length h
  · simp

/-- Whether the pattern matches anywhere in the input, scanning with the
same word-boundary bookkeeping as removeAux. -/
def hasM (kws : List (List Char)) (w : Bool) : List Char → Bool
  | [] => false
  | c :: cs =>
    ((!w) && (tryKws kws (c :: cs)).isSome) || hasM kws (wordCharB c) cs

/-- The four harmful patterns of BaseImageProvider.sanitizePrompt, as lists
of case-canonical keywords (each regex is an alternation of literal words
between two \b boundaries, with the gi flags). -/
def kws1 : List (List Char) :=
  ["hack", "exploit", "vulnerability", "bypass", "jailbreak"].map
    String.toList

def kws2 : List (List Char) :=
  ["nsfw", "explicit", "adult", "sexual", "pornographic"].map String.toList

def kws3 : List (List Char) :=
  ["violence", "gore", "death", "suicide", "self-harm"].map String.toList

def kws4 : List (List Char) :=
  ["illegal", "drugs", "weapons", "terrorism"].map String.toList

/-- BaseImageProvider.sanitizePrompt: trim and collapse whitespace, remove
the four denylist patterns in order, then collapse and trim again. -/
def sanitizePrompt (prompt : List Char) : List Char :=
  jsTrim (collapseWS
    (removeAux kws4 false
      (removeAux kws3 false
        (removeAux kws2 false
          (removeAux kws1 false
            (collapseWS (jsTrim prompt)))))))

theorem wordCharB_deCap (c : Char) : wordCharB (deCap c) = wordCharB c := by
  unfold deCap
  split <;> rfl

theorem deCap_eq_of_not_word (c : Char) (h : wordCharB c = false) :
    deCap c = c := by
  unfold deCap
  split <;> first | rfl | (exact absurd h (by decide))

theorem jsSpace_not_word (c : Char) (h : jsSpaceB c = true) :
    wordCharB c = false := by
  simp only [jsSpaceB, Bool.or_eq_true, beq_iff_eq] at h
  rcases h with ((((((((h | h) | h) | h) | h) | h) | h) | h) | h) | h <;>
    subst h <;> decide

/-- The first character of a keyword is a word character. -/
def headWordB : List Char → Bool
  | [] => false
  | c :: _ => wordCharB c

/-- The last character of a keyword is a word character. -/
def lastWordB : List Char → Bool
  | [] => false
  | [c] => wordCharB c
  | _ :: c :: cs => lastWordB (c :: cs)

/-- No two adjacent non-word characters inside a keyword. -/
def noAdjB : List Char → Bool
  | [] => true
  | [_] => true
  | c1 :: c2 :: cs => (wordCharB c1 || wordCharB c2) && noAdjB (c2 :: cs)

/-- No whitespace characters inside a keyword. -/
def noSpaceB (kw : List Char) : Bool := kw.all (fun c => !jsSpaceB c)

/-- The shape shared by every keyword of the four denylist patterns: it
begins and ends with a word character, has no two adjacent non-word
characters and contains no whitespace. -/
def kwOk (kw : List Char) : Bool :=
  headWordB kw && lastWordB kw && noAdjB kw && noSpaceB kw

/-- A pattern all of whose alternatives have the keyword shape. -/
def goodKws (kws : List (List Char)) : Bool := kws.all kwOk

theorem goodKws_kws1 : goodKws kws1 = true := by decide

theorem goodKws_kws2 : goodKws kws2 = true := by decide

theorem goodKws_kws3 : goodKws kws3 = true := by decide

theorem goodKws_kws4 : goodKws kws4 = true := by decide

theorem removeAux_nil (kws : List (List Char)) (w : Bool) :
    removeAux kws w [] = [] := by
  rw [removeAux]

theorem removeAux_cons_true (kws : List (List Char)) (c : Char)
    (cs : List Char) :
    removeAux kws true (c :: cs) = c :: removeAux kws (wordCharB c) cs := by
  rw [removeAux]
  rfl

theorem removeAux_cons_some {kws : List (List Char)} {c : Char}
    {cs rest : List Char} (h : tryKws kws (c :: cs) = some rest) :
    removeAux kws false (c :: cs) = removeAux kws true rest := by
  rw [removeAux]
  simp only [Bool.false_eq_true, if_false]
  split
  · rename_i r hr
    rw [h] at hr
    injection hr with hr
    rw [hr]
  · rename_i hr
    rw [h] at hr
    exact absurd hr (by simp)

theorem removeAux_cons_none {kws : List (List Char)} {c : Char}
    {cs : List Char} (h : tryKws kws (c :: cs) = none) :
    removeAux kws false (c :: cs) =
      c :: removeAux kws (wordCharB c) cs := by
  rw [removeAux]
  simp only [Bool.false_eq_true, if_false]
  split
  · rename_i r hr
    rw [h] at hr
    exact absurd hr (by simp)
  · rfl

theorem removeAux_cons_noRem {kws : List (List Char)} {w : Bool} {c : Char}
    {cs : List Char} (h : w = true ∨ tryKws kws (c :: cs) = none) :
    removeAux kws w (c :: cs) = c :: removeAux kws (wordCharB c) cs := by
  rcases h with h | h
  · rw [h, removeAux_cons_true]
  · cases w
    · exact removeAux_cons_none h
    · rw [removeAux_cons_true]

theorem noAdjB_tail {k : Char} {ks : List Char}
    (h : noAdjB (k :: ks) = true) : noAdjB ks = true := by
  cases ks with
  | nil => rfl
  | cons k2 ks2 =>
    simp only [noAdjB, Bool.and_eq_true] at h
    exact h.2

theorem noAdjB_head2 {k k2 : Char} {ks2 : List Char}
    (h : noAdjB (k :: k2 :: ks2) = true) (hk : wordCharB k = false) :
    wordCharB k2 = true := by
  simp only [noAdjB, Bool.and_eq_true, Bool.or_eq_true] at h
  rcases h.1 with h1 | h1
  · exact absurd h1 (by simp [hk])
  · exact h1

/-- Matches found at the start of a removal pass output already existed at
the same position of the input: a keyword that begins and ends with a word
character, has no two adjacent non-word characters, and (when the scan flag
says the previous character is a word character) has been entered through a
word character, cannot span the seam left by a removed keyword. -/
theorem matchTransfer (remKws : List (List Char)) :
    ∀ n : Nat, ∀ s : List Char, s.length ≤ n → ∀ (w : Bool) (kw : List Char),
    noAdjB kw = true →
    (kw = [] → w = true) →
    (∀ k ks, kw = k :: ks →
      lastWordB (k :: ks) = true ∧ (w = false → wordCharB k = true)) →
    ∀ r2, ciMatch kw (removeAux remKws w s) = some r2 →
    boundaryAfter r2 = true →
    ∃ r, ciMatch kw s = some r ∧ boundaryAfter r = true := by
  intro n
  induction n with
  | zero =>
    intro s hs w kw hAdj hNil hCons r2 hci hb
    have hsnil : s = [] := List.length_eq_zero.mp (Nat.le_zero.mp hs)
    subst hsnil
    rw [removeAux_nil] at hci
    cases kw with
    | nil => exact ⟨[], by simp [ciMatch], by simp [boundaryAfter]⟩
    | cons k ks => simp [ciMatch] at hci
  | succ n ih =>
    intro s hs w kw hAdj hNil hCons r2 hci hb
    cases s with
    | nil =>
      rw [removeAux_nil] at hci
      cases kw with
      | nil => exact ⟨[], by simp [ciMatch], by simp [boundaryAfter]⟩
      | cons k ks => simp [ciMatch] at hci
    | cons c cs =>
      have hlen : cs.length ≤ n := by simp at hs; omega
      by_cases hrem : w = false ∧ (tryKws remKws (c :: cs)).isSome = true
      · obtain ⟨hw, hsome⟩ := hrem
        obtain ⟨rest, hm⟩ := Option.isSome_iff_exists.mp hsome
        subst hw
        rw [removeAux_cons_some hm] at hci
        cases kw with
        | nil => simp at hNil
        | cons k ks =>
          have hk : wordCharB k = true := (hCons k ks rfl).2 rfl
          cases rest with
          | nil =>
            rw [removeAux_nil] at hci
            simp [ciMatch] at hci
          | cons d ds =>
            obtain ⟨kw2, _, hkw2⟩ := tryKws_eq_some hm
            obtain ⟨_, _, hbrest⟩ := tryKw_eq_some hkw2
            have hd : wordCharB d = false := by
              simpa [boundaryAfter] using hbrest
            rw [removeAux_cons_true] at hci
            simp only [ciMatch] at hci
            by_cases hdc : deCap d = k
            · have hww := wordCharB_deCap d
              rw [hdc, hk, hd] at hww
              exact absurd hww (by simp)
            · rw [if_neg hdc] at hci
              exact absurd hci (by simp)
      · have hnr : w = true ∨ tryKws remKws (c :: cs) = none := by
          cases w with
          | false =>
            right
            have hns : ¬(tryKws remKws (c :: cs)).isSome = true :=
              fun hx => hrem ⟨rfl, hx⟩
            exact Option.not_isSome_iff_eq_none.mp hns
          | true => exact Or.inl rfl
        rw [removeAux_cons_noRem hnr] at hci
        cases kw with
        | nil =>
          simp only [ciMatch, Option.some.injEq] at hci
          refine ⟨c :: cs, by simp [ciMatch], ?_⟩
          rw [← hci] at hb
          simpa [boundaryAfter] using hb
        | cons k ks =>
          simp only [ciMatch] at hci
          by_cases hdc : deCap c = k
          · rw [if_pos hdc] at hci
            have hlast := (hCons k ks rfl).1
            have hAdjKs : noAdjB ks = true := noAdjB_tail hAdj
            have hwc : wordCharB c = wordCharB k := by
              rw [← wordCharB_deCap c, hdc]
            obtain ⟨r, hr, hbr⟩ :=
              ih cs hlen (wordCharB c) ks hAdjKs
                (by
                  intro hks
                  subst hks
                  rw [hwc]
                  simpa [lastWordB] using hlast)
                (by
                  intro k2 ks2 hks
                  subst hks
                  refine ⟨by simpa [lastWordB] using hlast, ?_⟩
                  intro hc0
                  have hkf : wordCharB k = false := by rw [← hwc, hc0]
                  exact noAdjB_head2 hAdj hkf)
                r2 hci hb
            exact ⟨r, by simp [ciMatch, hdc, hr], hbr⟩
          · rw [if_neg hdc] at hci
            exact absurd hci (by simp)

theorem goodKws_mem {kws : List (List Char)} {kw : List Char}
    (good : goodKws kws = true) (hmem : kw ∈ kws) : kwOk kw = true := by
  simp only [goodKws, List.all_eq_true] at good
  exact good kw hmem

theorem kwOk_destruct {k : Char} {ks : List Char}
    (h : kwOk (k :: ks) = true) :
    wordCharB k = true ∧ lastWordB (k :: ks) = true ∧
      noAdjB (k :: ks) = true ∧ noSpaceB (k :: ks) = true := by
  simp only [kwOk, headWordB, Bool.and_eq_true] at h
  exact ⟨h.1.1.1, h.1.1.2, h.1.2, h.2⟩

theorem tryKws_nonword_head {kws : List (List Char)}
    (good : goodKws kws = true) {d : Char} {ds : List Char}
    (hd : wordCharB d = false) : tryKws kws (d :: ds) = none := by
  cases htk : tryKws kws (d :: ds) with
  | none => rfl
  | some r =>
    exfalso
    obtain ⟨kw, hmem, hkw⟩ := tryKws_eq_some htk
    obtain ⟨hne, hci, _⟩ := tryKw_eq_some hkw
    cases kw with
    | nil => exact hne rfl
    | cons k ks =>
      have hok := kwOk_destruct (goodKws_mem good hmem)
      simp only [ciMatch] at hci
      by_cases hdc : deCap d = k
      · have hww := wordCharB_deCap d
        rw [hdc, hok.1, hd] at hww
        exact absurd hww (by simp)
      · rw [if_neg hdc] at hci
        exact absurd hci (by simp)

/-- A position where no pattern alternative matched still has no match
after the rest of the input went through a removal pass. -/
theorem tryKws_none_transfer {mKws : List (List Char)}
    (remKws : List (List Char)) (good : goodKws mKws = true) {c : Char}
    {cs : List Char} (h : tryKws mKws (c :: cs) = none) :
    tryKws mKws (c :: removeAux remKws (wordCharB c) cs) = none := by
  cases htk : tryKws mKws (c :: removeAux remKws (wordCharB c) cs) with
  | none => rfl
  | some r2 =>
    exfalso
    obtain ⟨kw, hmem, hkw⟩ := tryKws_eq_some htk
    obtain ⟨hne, hci, hbr⟩ := tryKw_eq_some hkw
    cases kw with
    | nil => exact hne rfl
    | cons k ks =>
      obtain ⟨hhead, hlast, hadj, _⟩ := kwOk_destruct (goodKws_mem good hmem)
      simp only [ciMatch] at hci
      by_cases hdc : deCap c = k
      · rw [if_pos hdc] at hci
        have hwc : wordCharB c = wordCharB k := by
          rw [← wordCharB_deCap c, hdc]
        obtain ⟨r, hr, hbr2⟩ :=
          matchTransfer remKws cs.length cs le_rfl (wordCharB c) ks
            (noAdjB_tail hadj)
            (by
              intro hks
              subst hks
              rw [hwc]
              simpa [lastWordB] using hlast)
            (by
              intro k2 ks2 hks
              subst hks
              refine ⟨by simpa [lastWordB] using hlast, ?_⟩
              intro hc0
              have hkf : wordCharB k = false := by rw [← hwc, hc0]
              exact noAdjB_head2 hadj hkf)
            r2 hci hbr
        have htko : tryKw (k :: ks) (c :: cs) = some r := by
          simp [tryKw, ciMatch, hdc, hr, hbr2]
        have hnone := tryKws_eq_none h (k :: ks) hmem
        rw [hnone] at htko
        exact absurd htko (by simp)
      · rw [if_neg hdc] at hci
        exact absurd hci (by simp)

/-- After a full removal pass for a pattern, the output contains no match
of that pattern. -/
theorem hasM_removeAux_self (kws : List (List Char))
    (good : goodKws kws = true) :
    ∀ n : Nat, ∀ s : List Char, s.length ≤ n → ∀ b : Bool,
    hasM kws b (removeAux kws b s) = false := by
  intro n
  induction n with
  | zero =>
    intro s hs b
    have hsnil : s = [] := List.length_eq_zero.mp (Nat.le_zero.mp hs)
    subst hsnil
    rw [removeAux_nil]
    rfl
  | succ n ih =>
    intro s hs b
    cases s with
    | nil =>
      rw [removeAux_nil]
      rfl
    | cons c cs =>
      have hlen : cs.length ≤ n := by simp at hs; omega
      by_cases hrem : b = false ∧ (tryKws kws (c :: cs)).isSome = true
      · obtain ⟨hb, hsome⟩ := hrem
        obtain ⟨rest, hm⟩ := Option.isSome_iff_exists.mp hsome
        subst hb
        rw [removeAux_cons_some hm]
        cases rest with
        | nil =>
          rw [removeAux_nil]
          rfl
        | cons d ds =>
          obtain ⟨kw2, _, hkw2⟩ := tryKws_eq_some hm
          obtain ⟨_, _, hbrest⟩ := tryKw_eq_some hkw2
          have hd : wordCharB d = false := by
            simpa [boundaryAfter] using hbrest
          rw [removeAux_cons_true, hd]
          have hrest := tryKws_length hm
          have hds : ds.length ≤ n := by
            simp at hrest hs ⊢
            omega
          have hx := ih ds hds false
          simp only [hasM, Bool.or_eq_false_iff]
          rw [hd]
          refine ⟨?_, hx⟩
          rw [tryKws_nonword_head good hd]
          simp
      · have hnr : b = true ∨ tryKws kws (c :: cs) = none := by
          cases b with
          | false =>
            right
            have hns : ¬(tryKws kws (c :: cs)).isSome = true :=
              fun hx => hrem ⟨rfl, hx⟩
            exact Option.not_isSome_iff_eq_none.mp hns
          | true => exact Or.inl rfl
        rw [removeAux_cons_noRem hnr]
        simp only [hasM, Bool.or_eq_false_iff]
        constructor
        · cases b with
          | true => simp
          | false =>
            rcases hnr with hnr | hnr
            · exact absurd hnr (by simp)
            · rw [tryKws_none_transfer kws good hnr]
              simp
        · exact ih cs hlen (wordCharB c)

theorem hasM_append_suffix {kws : List (List Char)} {ys : List Char} :
    ∀ pre : List Char, ∀ b : Bool, hasM kws b (pre ++ ys) = false →
    ∃ f : Bool, hasM kws f ys = false := by
  intro pre
  induction pre with
  | nil => exact fun b h => ⟨b, h⟩
  | cons c cs ih =>
    intro b h
    simp only [List.cons_append, hasM, Bool.or_eq_false_iff] at h
    exact ih (wordCharB c) h.2

theorem hasM_nonword_head {kws : List (List Char)}
    (good : goodKws kws = true) {d : Char} {ds : List Char}
    (hd : wordCharB d = false) (f : Bool) :
    hasM kws f (d :: ds) = hasM kws false ds := by
  simp only [hasM, tryKws_nonword_head good hd, hd]
  simp

/-- A removal pass for one pattern creates no matches of another pattern
with good keyword shape. -/
theorem hasM_removeAux_other (mKws remKws : List (List Char))
    (good : goodKws mKws = true) :
    ∀ n : Nat, ∀ s : List Char, s.length ≤ n → ∀ b : Bool,
    hasM mKws b s = false → hasM mKws b (removeAux remKws b s) = false := by
  intro n
  induction n with
  | zero =>
    intro s hs b hnm
    have hsnil : s = [] := List.length_eq_zero.mp (Nat.le_zero.mp hs)
    subst hsnil
    rw [removeAux_nil]
    rfl
  | succ n ih =>
    intro s hs b hnm
    cases s with
    | nil =>
      rw [removeAux_nil]
      rfl
    | cons c cs =>
      have hlen : cs.length ≤ n := by simp at hs; omega
      simp only [hasM, Bool.or_eq_false_iff] at hnm
      obtain ⟨hnm1, hnm2⟩ := hnm
      by_cases hrem : b = false ∧ (tryKws remKws (c :: cs)).isSome = true
      · obtain ⟨hb, hsome⟩ := hrem
        obtain ⟨rest, hm⟩ := Option.isSome_iff_exists.mp hsome
        subst hb
        rw [removeAux_cons_some hm]
        cases rest with
        | nil =>
          rw [removeAux_nil]
          rfl
        | cons d ds =>
          obtain ⟨kw2, _, hkw2⟩ := tryKws_eq_some hm
          obtain ⟨_, hcirest, hbrest⟩ := tryKw_eq_some hkw2
          have hd : wordCharB d = false := by
            simpa [boundaryAfter] using hbrest
          -- the suffix d :: ds of the input has no matches either
          obtain ⟨pre, hpre, _⟩ := ciMatch_decompose hcirest
          have hcons : hasM mKws (wordCharB c) cs = false := hnm2
          have hsplit : ∃ f, hasM mKws f (d :: ds) = false := by
            cases pre with
            | nil =>
              exact absurd hpre (by
                intro hx
                have := congrArg List.length hx
                have hl := tryKws_length hm
                simp at this hl
                omega)
            | cons p ps =>
              have hx : cs = ps ++ d :: ds := by
                have := hpre
                simp only [List.cons_append] at this
                injection this with h1 h2
              exact hasM_append_suffix ps (wordCharB c) (hx ▸ hcons)
          obtain ⟨f, hf⟩ := hsplit
          have hds : hasM mKws false ds = false := by
            rw [hasM_nonword_head good hd f] at hf
            exact hf
          have hrest := tryKws_length hm
          have hdslen : ds.length ≤ n := by
            simp at hrest hs ⊢
            omega
          rw [removeAux_cons_true, hd]
          rw [hasM_nonword_head good hd]
          exact ih ds hdslen false hds
      · have hnr : b = true ∨ tryKws remKws (c :: cs) = none := by
          cases b with
          | false =>
            right
            have hns : ¬(tryKws remKws (c :: cs)).isSome = true :=
              fun hx => hrem ⟨rfl, hx⟩
            exact Option.not_isSome_iff_eq_none.mp hns
          | true => exact Or.inl rfl
        rw [removeAux_cons_noRem hnr]
        simp only [hasM, Bool.or_eq_false_iff]
        constructor
        · cases b with
          | true => simp
          | false =>
            have hnone : tryKws mKws (c :: cs) = none := by
              simp only [Bool.not_false, Bool.true_and] at hnm1
              exact Option.not_isSome_iff_eq_none.mp (by simp [hnm1])
            rw [tryKws_none_transfer remKws good hnone]
            simp
        · exact ih cs hlen (wordCharB c) hnm2

/-- A string without matches is left unchanged by the removal pass. -/
theorem removeAux_id_of_noMatch {kws : List (List Char)} :
    ∀ s : List Char, ∀ b : Bool, hasM kws b s = false →
    removeAux kws b s = s := by
  intro s
  induction s with
  | nil => intro b _; exact removeAux_nil kws b
  | cons c cs ih =>
    intro b hnm
    simp only [hasM, Bool.or_eq_false_iff] at hnm
    obtain ⟨hnm1, hnm2⟩ := hnm
    have hnr : b = true ∨ tryKws kws (c :: cs) = none := by
      cases b with
      | false =>
        right
        simp only [Bool.not_false, Bool.true_and] at hnm1
        exact Option.not_isSome_iff_eq_none.mp (by simp [hnm1])
      | true => exact Or.inl rfl
    rw [removeAux_cons_noRem hnr, ih (wordCharB c) hnm2]

theorem noSpaceB_tail {k : Char} {ks : List Char}
    (h : noSpaceB (k :: ks) = true) : noSpaceB ks = true := by
  simp only [noSpaceB, List.all_cons, Bool.and_eq_true] at h ⊢
  exact h.2

theorem noSpaceB_head {k : Char} {ks : List Char}
    (h : noSpaceB (k :: ks) = true) : jsSpaceB k = false := by
  simp only [noSpaceB, List.all_cons, Bool.and_eq_true] at h
  simpa using h.1

theorem tryKws_isSome_of_mem {kws : List (List Char)} {kw s r : List Char}
    (hmem : kw ∈ kws) (h : tryKw kw s = some r) :
    (tryKws kws s).isSome = true := by
  induction kws with
  | nil => simp at hmem
  | cons kw0 rest ih =>
    rcases List.mem_cons.mp hmem with h0 | h0
    · subst h0
      simp [tryKws, h]
    · simp only [tryKws]
      cases hk : tryKw kw0 s with
      | some r2 => simp
      | none => exact ih h0

/-- Matches at the start of whitespace-collapsed input existed at the same
position of the raw input: keywords contain no whitespace, so a match never
touches a collapsed run. -/
theorem collapseMatch :
    ∀ kw : List Char, noSpaceB kw = true → ∀ s : List Char, ∀ r2,
    ciMatch kw (collapseAux false s) = some r2 → boundaryAfter r2 = true →
    ∃ r, ciMatch kw s = some r ∧ boundaryAfter r = true := by
  intro kw
  induction kw with
  | nil =>
    intro _ s r2 hci hb
    refine ⟨s, by simp [ciMatch], ?_⟩
    simp only [ciMatch, Option.some.injEq] at hci
    subst hci
    cases s with
    | nil => simp [boundaryAfter]
    | cons c cs =>
      by_cases hsp : jsSpaceB c = true
      · simpa [boundaryAfter] using jsSpace_not_word c hsp
      · simp only [collapseAux, hsp, if_neg] at hb
        simp only [Bool.false_eq_true, if_false] at hb
        simpa [boundaryAfter] using hb
  | cons k ks ih =>
    intro hns s r2 hci hb
    cases s with
    | nil => simp [collapseAux, ciMatch] at hci
    | cons c cs =>
      by_cases hsp : jsSpaceB c = true
      · exfalso
        simp only [collapseAux, hsp, if_pos, Bool.false_eq_true, if_false,
          ciMatch] at hci
        by_cases hdc : deCap ' ' = k
        · have hk : jsSpaceB k = true := by
            rw [← hdc]
            decide
          exact absurd hk (by simp [noSpaceB_head hns])
        · rw [if_neg hdc] at hci
          exact absurd hci (by simp)
      · have hcol : collapseAux false (c :: cs) =
            c :: collapseAux false cs := by
          simp [collapseAux, hsp]
        rw [hcol] at hci
        simp only [ciMatch] at hci
        by_cases hdc : deCap c = k
        · rw [if_pos hdc] at hci
          obtain ⟨r, hr, hbr⟩ := ih (noSpaceB_tail hns) cs r2 hci hb
          exact ⟨r, by simp [ciMatch, hdc, hr], hbr⟩
        · rw [if_neg hdc] at hci
          exact absurd hci (by simp)

/-- Whitespace collapsing creates no new pattern matches. -/
theorem hasM_collapseAux (kws : List (List Char))
    (good : goodKws kws = true) :
    ∀ s : List Char, ∀ ps b : Bool, (ps = true → b = false) →
    hasM kws b (collapseAux ps s) = true → hasM kws b s = true := by
  intro s
  induction s with
  | nil =>
    intro ps b _ h
    simp [collapseAux, hasM] at h
  | cons c cs ih =>
    intro ps b hps h
    by_cases hsp : jsSpaceB c = true
    · have hcw : wordCharB c = false := jsSpace_not_word c hsp
      cases ps with
      | true =>
        have hb : b = false := hps rfl
        subst hb
        simp only [collapseAux, hsp, if_pos] at h
        have := ih true false (fun _ => rfl) h
        simp only [hasM, Bool.or_eq_true]
        right
        rw [hcw]
        exact this
      | false =>
        simp only [collapseAux, hsp, if_pos] at h
        simp only [hasM, Bool.or_eq_true] at h
        rcases h with h | h
        · exfalso
          have : tryKws kws (' ' :: collapseAux true cs) = none :=
            tryKws_nonword_head good (by decide)
          simp [this] at h
        · have hw2 : wordCharB ' ' = false := by decide
          rw [hw2] at h
          have := ih true false (fun _ => rfl) h
          simp only [hasM, Bool.or_eq_true]
          right
          rw [hcw]
          exact this
    · have hcol : collapseAux ps (c :: cs) = c :: collapseAux false cs := by
        simp [collapseAux, hsp]
      rw [hcol] at h
      simp only [hasM, Bool.or_eq_true] at h ⊢
      rcases h with h | h
      · left
        simp only [Bool.and_eq_true] at h ⊢
        refine ⟨h.1, ?_⟩
        obtain ⟨r2, hr2⟩ := Option.isSome_iff_exists.mp h.2
        obtain ⟨kw, hmem, hkw⟩ := tryKws_eq_some hr2
        obtain ⟨hne, hci, hbr⟩ := tryKw_eq_some hkw
        have hnsp : noSpaceB kw = true :=
          match kw, hne with
          | k :: ks, _ => (kwOk_destruct (goodKws_mem good hmem)).2.2.2
        have hback : ciMatch kw (collapseAux false (c :: cs)) = some r2 := by
          have hcf : collapseAux false (c :: cs) = c :: collapseAux false cs := by
            simp [collapseAux, hsp]
          rw [hcf]
          exact hci
        obtain ⟨r, hr, hbr2⟩ := collapseMatch kw hnsp (c :: cs) r2 hback hbr
        have : tryKw kw (c :: cs) = some r := by
          cases kw with
          | nil => exact absurd rfl hne
          | cons k ks => simp [tryKw, hr, hbr2]
        exact tryKws_isSome_of_mem hmem this
      · right
        exact ih false (wordCharB c) (by simp) h

/-- Whitespace normal form, scanned with a previous-was-space flag: every
whitespace character is a plain space and no space follows the previous
space of a run. -/
def okcAux : Bool → List Char → Bool
  | _, [] => true
  | ps, c :: cs =>
    if jsSpaceB c then (c == ' ') && (!ps) && okcAux true cs
    else okcAux false cs

theorem okcAux_mono : ∀ l : List Char, okcAux true l = true →
    okcAux false l = true := by
  intro l h
  cases l with
  | nil => rfl
  | cons c cs =>
    by_cases hsp : jsSpaceB c = true
    · simp [okcAux, hsp] at h
    · simp only [okcAux, hsp, if_neg] at h ⊢
      simpa [hsp] using h

theorem collapseAux_id : ∀ l : List Char, ∀ ps : Bool,
    okcAux ps l = true → collapseAux ps l = l := by
  intro l
  induction l with
  | nil => intro ps _; rfl
  | cons c cs ih =>
    intro ps h
    by_cases hsp : jsSpaceB c = true
    · have h2 : ((c == ' ') && (!ps) && okcAux true cs) = true := by
        simpa [okcAux, hsp] using h
      simp only [Bool.and_eq_true, beq_iff_eq, Bool.not_eq_eq_eq_not,
        Bool.not_true] at h2
      obtain ⟨⟨hc, hps⟩, hcs⟩ := h2
      subst hps
      simp only [collapseAux, hsp, if_pos, Bool.false_eq_true, if_false]
      rw [← hc, ih true hcs]
    · have h2 : okcAux false cs = true := by simpa [okcAux, hsp] using h
      simp [collapseAux, hsp, ih false h2]

theorem okcAux_collapseAux : ∀ l : List Char, ∀ ps : Bool,
    okcAux ps (collapseAux ps l) = true := by
  intro l
  induction l with
  | nil => intro ps; rfl
  | cons c cs ih =>
    intro ps
    by_cases hsp : jsSpaceB c = true
    · cases ps with
      | true =>
        simp only [collapseAux, hsp, if_pos]
        exact ih true
      | false =>
        simp only [collapseAux, hsp, if_pos, Bool.false_eq_true, if_false]
        have hsp2 : jsSpaceB ' ' = true := by decide
        simp only [okcAux, hsp2, if_pos]
        simpa using ih true
    · simp only [collapseAux, hsp, if_neg, okcAux]
      exact ih false

theorem okcAux_append_left {b : List Char} :
    ∀ a : List Char, ∀ ps : Bool, okcAux ps (a ++ b) = true →
    okcAux ps a = true := by
  intro a
  induction a with
  | nil => intro ps _; rfl
  | cons c cs ih =>
    intro ps h
    by_cases hsp : jsSpaceB c = true
    · simp only [List.cons_append, okcAux, hsp, if_pos,
        Bool.and_eq_true] at h ⊢
      exact ⟨h.1, ih true h.2⟩
    · simp only [List.cons_append, okcAux, hsp, if_neg] at h ⊢
      exact ih false h

theorem okcAux_trimL : ∀ l : List Char, okcAux false l = true →
    okcAux false (trimL l) = true := by
  intro l
  induction l with
  | nil => intro _; rfl
  | cons c cs ih =>
    intro h
    by_cases hsp : jsSpaceB c = true
    · have htl : trimL (c :: cs) = trimL cs := by
        simp [trimL, List.dropWhile, hsp]
      rw [htl]
      simp only [okcAux, hsp, if_pos, Bool.and_eq_true] at h
      exact ih (okcAux_mono cs (by simpa using h.2))
    · have htl : trimL (c :: cs) = c :: cs := by
        simp [trimL, List.dropWhile, hsp]
      rw [htl]
      exact h

theorem dropWhile_length_le (p : Char → Bool) : ∀ l : List Char,
    (l.dropWhile p).length ≤ l.length := by
  intro l
  induction l with
  | nil => simp
  | cons c cs ih =>
    by_cases hp : p c = true
    · simp only [List.dropWhile, hp, if_pos]
      exact Nat.le_succ_of_le ih
    · simp [List.dropWhile, hp]

theorem trimL_cons_head {c : Char} {cs : List Char}
    (h : jsSpaceB c = false) : trimL (c :: cs) = c :: cs := by
  simp [trimL, List.dropWhile, h]

theorem trimL_eq_self_of_eq {c : Char} {cs : List Char}
    (h : trimL (c :: cs) = c :: cs) : jsSpaceB c = false := by
  by_cases hsp : jsSpaceB c = true
  · exfalso
    have htl : trimL (c :: cs) = trimL cs := by
      simp [trimL, List.dropWhile, hsp]
    rw [htl] at h
    have hle : (trimL cs).length ≤ cs.length := by
      simpa [trimL] using dropWhile_length_le jsSpaceB cs
    rw [h] at hle
    simp at hle
  · simpa using hsp

theorem dropWhile_idem (p : Char → Bool) : ∀ l : List Char,
    (l.dropWhile p).dropWhile p = l.dropWhile p := by
  intro l
  induction l with
  | nil => rfl
  | cons c cs ih =>
    by_cases hp : p c = true
    · simp [List.dropWhile, hp, ih]
    · simp [List.dropWhile, hp]

theorem trimL_idem (s : List Char) : trimL (trimL s) = trimL s :=
  dropWhile_idem jsSpaceB s

theorem trimR_idem (s : List Char) : trimR (trimR s) = trimR s := by
  simp only [trimR, List.reverse_reverse]
  rw [dropWhile_idem]

/-- The trailing part removed by trimR is all whitespace. -/
theorem trimR_decompose (s : List Char) :
    ∃ sp, s = trimR s ++ sp ∧ ∀ c ∈ sp, jsSpaceB c = true := by
  refine ⟨(s.reverse.takeWhile jsSpaceB).reverse, ?_, ?_⟩
  · rw [trimR, ← List.reverse_append, List.takeWhile_append_dropWhile,
      List.reverse_reverse]
  · intro c hc
    rw [List.mem_reverse] at hc
    exact List.mem_takeWhile_imp hc

/-- The leading part removed by trimL is all whitespace. -/
theorem trimL_decompose (s : List Char) :
    ∃ sp, s = sp ++ trimL s ∧ ∀ c ∈ sp, jsSpaceB c = true := by
  refine ⟨s.takeWhile jsSpaceB, ?_, ?_⟩
  · rw [trimL, ← List.takeWhile_append_dropWhile (p := jsSpaceB) (l := s)]
    simp
  · intro c hc
    exact List.mem_takeWhile_imp hc

theorem ciMatch_append {kw s r x : List Char} (h : ciMatch kw s = some r) :
    ciMatch kw (s ++ x) = some (r ++ x) := by
  induction kw generalizing s with
  | nil =>
    simp only [ciMatch, Option.some.injEq] at h ⊢
    rw [h]
  | cons k ks ih =>
    cases s with
    | nil => simp [ciMatch] at h
    | cons c cs =>
      simp only [ciMatch] at h ⊢
      by_cases hdc : deCap c = k
      · rw [if_pos hdc] at h ⊢
        exact ih h
      · rw [if_neg hdc] at h
        exact absurd h (by simp)

theorem boundaryAfter_append_space {r sp : List Char}
    (hb : boundaryAfter r = true) (hsp : ∀ c ∈ sp, jsSpaceB c = true) :
    boundaryAfter (r ++ sp) = true := by
  cases r with
  | nil =>
    cases sp with
    | nil => rfl
    | cons c cs =>
      have := jsSpace_not_word c (hsp c (by simp))
      simpa [boundaryAfter] using this
  | cons d ds => simpa [boundaryAfter] using hb

theorem hasM_append_space {kws : List (List Char)} {sp : List Char}
    (hsp : ∀ c ∈ sp, jsSpaceB c = true) :
    ∀ s : List Char, ∀ b : Bool, hasM kws b s = true →
    hasM kws b (s ++ sp) = true := by
  intro s
  induction s with
  | nil => intro b h; simp [hasM] at h
  | cons c cs ih =>
    intro b h
    simp only [hasM, Bool.or_eq_true] at h
    rcases h with h | h
    · simp only [Bool.and_eq_true] at h
      obtain ⟨r, hr⟩ := Option.isSome_iff_exists.mp h.2
      obtain ⟨kw, hmem, hkw⟩ := tryKws_eq_some hr
      obtain ⟨hne, hci, hbr⟩ := tryKw_eq_some hkw
      have hci2 : ciMatch kw ((c :: cs) ++ sp) = some (r ++ sp) :=
        ciMatch_append hci
      have hbr2 : boundaryAfter (r ++ sp) = true :=
        boundaryAfter_append_space hbr hsp
      rw [List.cons_append] at hci2
      have htk : tryKw kw (c :: (cs ++ sp)) = some (r ++ sp) := by
        cases kw with
        | nil => exact absurd rfl hne
        | cons k ks =>
          simp only [tryKw]
          rw [hci2]
          simp [hbr2]
      simp only [List.cons_append, hasM, Bool.or_eq_true]
      left
      simp only [Bool.and_eq_true]
      exact ⟨h.1, by
        have := tryKws_isSome_of_mem hmem htk
        simpa using this⟩
    · simp only [List.cons_append, hasM, Bool.or_eq_true]
      right
      exact ih (wordCharB c) h

theorem hasM_spaces_prepend {kws : List (List Char)}
    (good : goodKws kws = true) {sp : List Char}
    (hsp : ∀ c ∈ sp, jsSpaceB c = true) (s : List Char) :
    hasM kws false (sp ++ s) = hasM kws false s := by
  induction sp with
  | nil => rfl
  | cons c cs ih =>
    have hc : jsSpaceB c = true := hsp c (by simp)
    have hcw : wordCharB c = false := jsSpace_not_word c hc
    have hcs : ∀ x ∈ cs, jsSpaceB x = true := fun x hx => hsp x (by simp [hx])
    simp only [List.cons_append, hasM,
      tryKws_nonword_head good hcw, hcw]
    simpa using ih hcs

/-- No-match is preserved through the final whitespace collapse and trim. -/
theorem hasM_tc_false {kws : List (List Char)} (good : goodKws kws = true)
    {y : List Char} (h : hasM kws false y = false) :
    hasM kws false (jsTrim (collapseWS y)) = false := by
  have h1 : hasM kws false (collapseWS y) = false := by
    cases hx : hasM kws false (collapseWS y) with
    | false => rfl
    | true =>
      have := hasM_collapseAux kws good y false false
        (fun hh => by cases hh) hx
      rw [this] at h
      exact absurd h (by simp)
  obtain ⟨spL, hspl, hallL⟩ := trimL_decompose (collapseWS y)
  have h2 : hasM kws false (trimL (collapseWS y)) = false := by
    have hpre := hasM_spaces_prepend good hallL (trimL (collapseWS y))
    rw [← hspl] at hpre
    rw [← hpre]
    exact h1
  obtain ⟨spR, hspr, hallR⟩ := trimR_decompose (trimL (collapseWS y))
  show hasM kws false (trimR (trimL (collapseWS y))) = false
  cases hx : hasM kws false (trimR (trimL (collapseWS y))) with
  | false => rfl
  | true =>
    have happ := hasM_append_space hallR _ false hx
    rw [← hspr] at happ
    rw [happ] at h2
    exact absurd h2 (by simp)

/-- A string with no matches of any of the four patterns that is in
whitespace normal form and already trimmed is a fixed point of the
sanitizer. -/
theorem sanitizePrompt_fixpoint {t : List Char}
    (h1 : hasM kws1 false t = false) (h2 : hasM kws2 false t = false)
    (h3 : hasM kws3 false t = false) (h4 : hasM kws4 false t = false)
    (hokc : okcAux false t = true) (htL : trimL t = t)
    (htR : trimR t = t) : sanitizePrompt t = t := by
  have hjt : jsTrim t = t := by rw [jsTrim, htL, htR]
  have hct : collapseWS t = t := collapseAux_id t false hokc
  have hr1 : removeAux kws1 false t = t := removeAux_id_of_noMatch t false h1
  have hr2 : removeAux kws2 false t = t := removeAux_id_of_noMatch t false h2
  have hr3 : removeAux kws3 false t = t := removeAux_id_of_noMatch t false h3
  have hr4 : removeAux kws4 false t = t := removeAux_id_of_noMatch t false h4
  show jsTrim (collapseWS
    (removeAux kws4 false
      (removeAux kws3 false
        (removeAux kws2 false
          (removeAux kws1 false
            (collapseWS (jsTrim t))))))) = t
  rw [hjt, hct, hr1, hr2, hr3, hr4, hct, hjt]

/-- After the four removal passes, the collapsed and trimmed output has no
match of any of the four patterns and is normal and trimmed, so the
sanitizer fixes it. -/
theorem sanitizePrompt_post (y4 : List Char)
    (h1 : hasM kws1 false y4 = false) (h2 : hasM kws2 false y4 = false)
    (h3 : hasM kws3 false y4 = false) (h4 : hasM kws4 false y4 = false) :
    sanitizePrompt (jsTrim (collapseWS y4)) = jsTrim (collapseWS y4) := by
  have hokcx : okcAux false (collapseWS y4) = true := okcAux_collapseAux y4 false
  have hokcx1 : okcAux false (trimL (collapseWS y4)) = true :=
    okcAux_trimL (collapseWS y4) hokcx
  obtain ⟨spR, hspr, hallR⟩ := trimR_decompose (trimL (collapseWS y4))
  have hokct : okcAux false (trimR (trimL (collapseWS y4))) = true := by
    apply okcAux_append_left (b := spR)
    rw [← hspr]
    exact hokcx1
  have hx1L : trimL (trimL (collapseWS y4)) = trimL (collapseWS y4) :=
    trimL_idem (collapseWS y4)
  have htR : trimR (trimR (trimL (collapseWS y4))) =
      trimR (trimL (collapseWS y4)) := trimR_idem (trimL (collapseWS y4))
  have htL : trimL (trimR (trimL (collapseWS y4))) =
      trimR (trimL (collapseWS y4)) := by
    cases hcase : trimR (trimL (collapseWS y4)) with
    | nil => rfl
    | cons c t2 =>
      have hx1 : trimL (collapseWS y4) = c :: (t2 ++ spR) := by
        rw [hspr, hcase]
        simp
      have hns : jsSpaceB c = false := by
        have hxx : trimL (c :: (t2 ++ spR)) = c :: (t2 ++ spR) := by
          rw [← hx1]
          exact hx1L
        exact trimL_eq_self_of_eq hxx
      exact trimL_cons_head hns
  exact sanitizePrompt_fixpoint
    (hasM_tc_false goodKws_kws1 h1) (hasM_tc_false goodKws_kws2 h2)
    (hasM_tc_false goodKws_kws3 h3) (hasM_tc_false goodKws_kws4 h4)
    hokct htL htR

/-- C10: sanitizePrompt is idempotent.  For every prompt string p,
sanitizePrompt (sanitizePrompt p) = sanitizePrompt p: a prompt already
stripped of excess whitespace and denylisted keywords is returned
unchanged. -/
theorem sanitizePrompt_idempotent (p : List Char) :
    sanitizePrompt (sanitizePrompt p) = sanitizePrompt p := by
  have s1 := hasM_removeAux_self kws1 goodKws_kws1
    (collapseWS (jsTrim p)).length (collapseWS (jsTrim p)) le_rfl false
  have s1b := hasM_removeAux_other kws1 kws2 goodKws_kws1 _ _ le_rfl false s1
  have s1c := hasM_removeAux_other kws1 kws3 goodKws_kws1 _ _ le_rfl false s1b
  have s1d := hasM_removeAux_other kws1 kws4 goodKws_kws1 _ _ le_rfl false s1c
  have s2 := hasM_removeAux_self kws2 goodKws_kws2 _
    (removeAux kws1 false (collapseWS (jsTrim p))) le_rfl false
  have s2c := hasM_removeAux_other kws2 kws3 goodKws_kws2 _ _ le_rfl false s2
  have s2d := hasM_removeAux_other kws2 kws4 goodKws_kws2 _ _ le_rfl false s2c
  have s3 := hasM_removeAux_self kws3 goodKws_kws3 _
    (removeAux kws2 false
      (removeAux kws1 false (collapseWS (jsTrim p)))) le_rfl false
  have s3d := hasM_removeAux_other kws3 kws4 goodKws_kws3 _ _ le_rfl false s3
  have s4 := hasM_removeAux_self kws4 goodKws_kws4 _
    (removeAux kws3 false
      (removeAux kws2 false
        (removeAux kws1 false (collapseWS (jsTrim p))))) le_rfl false
  exact sanitizePrompt_post _ s1d s2d s3d s4

theorem supportingProviders_mem {pm : List Provider} {f : Feature}
    {p : Provider} (h : p ∈ supportingProviders pm f) :
    p ∈ pm ∧ p.available = true ∧ p.features f = true := by
  simp only [supportingProviders, getAvailableProviders,
    List.mem_filter] at h
  exact ⟨h.1.1, h.1.2, h.2⟩

theorem firstByPriority_mem :
    ∀ order : List String, ∀ sup : List Provider, ∀ p : Provider,
    firstByPriority order sup = some p → p ∈ sup := by
  intro order
  induction order with
  | nil =>
    intro sup p h
    simp only [firstByPriority] at h
    cases sup with
    | nil => simp at h
    | cons a l =>
      simp only [List.head?, Option.some.injEq] at h
      simp [← h]
  | cons n rest ih =>
    intro sup p h
    simp only [firstByPriority] at h
    cases hf : sup.find? (fun q => q.name == n) with
    | some q =>
      rw [hf] at h
      injection h with h
      subst h
      exact List.mem_of_find?_eq_some hf
    | none =>
      rw [hf] at h
      exact ih sup p h

theorem firstByPriority_isSome :
    ∀ order : List String, ∀ (a : Provider) (l : List Provider),
    (firstByPriority order (a :: l)).isSome = true := by
  intro order
  induction order with
  | nil => intro a l; simp [firstByPriority]
  | cons n rest ih =>
    intro a l
    simp only [firstByPriority]
    cases hf : (a :: l).find? (fun q => q.name == n) with
    | some q => simp
    | none => exact ih a l

theorem getBestProvider_mem {pm : List Provider} {f : Feature}
    {p : Provider} (h : getBestProvider pm f = some p) :
    p ∈ supportingProviders pm f := by
  unfold getBestProvider at h
  cases hs : supportingProviders pm f with
  | nil =>
    rw [hs] at h
    simp at h
  | cons a l =>
    rw [hs] at h
    exact firstByPriority_mem (priorities f) (a :: l) p h

/-- C5: getBestProvider returns only a provider that is available and
supports the feature at selection time; among such providers it picks the
first name of the fixed per-feature priority table, falls back to the first
supporting provider when no priority name matches, and returns none when no
available provider supports the feature. -/
theorem getBestProvider_spec (pm : List Provider) (f : Feature) :
    (∀ p, getBestProvider pm f = some p →
      p.available = true ∧ p.features f = true) ∧
    (getBestProvider pm f = none ↔ supportingProviders pm f = []) ∧
    (∀ n0 n1, priorities f = [n0, n1] →
      (∀ p,
        (supportingProviders pm f).find? (fun q => q.name == n0) = some p →
        getBestProvider pm f = some p) ∧
      ((supportingProviders pm f).find? (fun q => q.name == n0) = none →
        ∀ p,
        (supportingProviders pm f).find? (fun q => q.name == n1) = some p →
        getBestProvider pm f = some p) ∧
      ((supportingProviders pm f).find? (fun q => q.name == n0) = none →
        (supportingProviders pm f).find? (fun q => q.name == n1) = none →
        getBestProvider pm f = (supportingProviders pm f).head?)) := by
  refine ⟨?_, ?_, ?_⟩
  · intro p h
    exact (supportingProviders_mem (getBestProvider_mem h)).2
  · constructor
    · intro h
      cases hs : supportingProviders pm f with
      | nil => rfl
      | cons a l =>
        exfalso
        unfold getBestProvider at h
        rw [hs] at h
        have h2 : firstByPriority (priorities f) (a :: l) = none := h
        have := firstByPriority_isSome (priorities f) a l
        rw [h2] at this
        simp at this
    · intro h
      unfold getBestProvider
      rw [h]
  · intro n0 n1 hpr
    refine ⟨?_, ?_, ?_⟩
    · intro p hf
      cases hs : supportingProviders pm f with
      | nil =>
        rw [hs] at hf
        simp at hf
      | cons a l =>
        unfold getBestProvider
        rw [hs, hpr]
        rw [hs] at hf
        simp only [firstByPriority, hf]
    · intro hf0 p hf1
      cases hs : supportingProviders pm f with
      | nil =>
        rw [hs] at hf1
        simp at hf1
      | cons a l =>
        unfold getBestProvider
        rw [hs, hpr]
        rw [hs] at hf0 hf1
        simp only [firstByPriority, hf0, hf1]
    · intro hf0 hf1
      cases hs : supportingProviders pm f with
      | nil =>
        unfold getBestProvider
        rw [hs]
        simp
      | cons a l =>
        unfold getBestProvider
        rw [hs, hpr]
        rw [hs] at hf0 hf1
        simp only [firstByPriority, hf0, hf1]

theorem invokeWithFallback_head (pm : List Provider)
    (request : ImageGenerationRequest) (p : Provider) :
    (invokeWithFallback pm request p).2.head? = some p.name := by
  cases hg : p.generate request with
  | ok r => simp [invokeWithFallback, hg]
  | error e =>
    cases hf : getFallbackProvider pm p.name Feature.generation with
    | some q =>
      cases hq : q.generate request with
      | ok r => simp [invokeWithFallback, hg, hf, hq]
      | error e2 => simp [invokeWithFallback, hg, hf, hq]
    | none => simp [invokeWithFallback, hg, hf]

theorem invokeWithFallback_len (pm : List Provider)
    (request : ImageGenerationRequest) (p : Provider) :
    (invokeWithFallback pm request p).2.length ≤ 2 := by
  cases hg : p.generate request with
  | ok r => simp [invokeWithFallback, hg]
  | error e =>
    cases hf : getFallbackProvider pm p.name Feature.generation with
    | some q =>
      cases hq : q.generate request with
      | ok r => simp [invokeWithFallback, hg, hf, hq]
      | error e2 => simp [invokeWithFallback, hg, hf, hq]
    | none => simp [invokeWithFallback, hg, hf]

theorem getFallbackProvider_spec {pm : List Provider} {n : String}
    {f : Feature} {q : Provider}
    (h : getFallbackProvider pm n f = some q) :
    q ∈ pm ∧ q.available = true ∧ q.features f = true ∧ q.name ≠ n := by
  unfold getFallbackProvider at h
  have hmem := List.mem_of_find?_eq_some h
  have hpred := List.find?_some h
  simp only [getAvailableProviders, List.mem_filter] at hmem
  simp only [Bool.and_eq_true, Bool.not_eq_eq_eq_not, Bool.not_true,
    beq_eq_false_iff_ne] at hpred
  exact ⟨hmem.1, hmem.2, hpred.2, hpred.1⟩

theorem getProvider_mem {pm : List Provider} {name : String} {p : Provider}
    (h : getProvider pm name = some p) : p ∈ pm :=
  List.mem_of_find?_eq_some h

theorem selectedProvider_mem {pm : List Provider}
    {request : ImageGenerationRequest} {preferred : Option String}
    {p : Provider} (h : selectedProvider pm request preferred = some p) :
    p ∈ pm := by
  unfold selectedProvider at h
  have hbest : ∀ f : Feature, getBestProvider pm f = some p → p ∈ pm :=
    fun f hb => (supportingProviders_mem (getBestProvider_mem hb)).1
  cases preferred with
  | none =>
    simp only at h
    exact hbest _ h
  | some name =>
    simp only at h
    cases hg : getProvider pm name with
    | some p0 =>
      rw [hg] at h
      have h2 : (match (if p0.available = true then some p0 else none :
          Option Provider) with
        | some q => some q
        | none => getBestProvider pm
            (if request.transparent = true then Feature.logo
             else Feature.generation)) = some p := h
      by_cases hav : p0.available = true
      · rw [if_pos hav] at h2
        have h3 : some p0 = some p := h2
        injection h3 with h3
        subst h3
        exact getProvider_mem hg
      · rw [if_neg hav] at h2
        exact hbest _ h2
    | none =>
      rw [hg] at h
      exact hbest _ h

theorem filter_eq_nil_of_all {α : Type} {p : α → Bool} :
    ∀ l : List α, (∀ x ∈ l, p x = false) → l.filter p = [] := by
  intro l
  induction l with
  | nil => intro _; rfl
  | cons a l2 ih =>
    intro h
    have ha := h a (by simp)
    simp only [List.filter, ha]
    exact ih fun x hx => h x (by simp [hx])

theorem selectedProvider_none_of_unavail {pm : List Provider}
    {request : ImageGenerationRequest} {preferred : Option String}
    (h : ∀ p ∈ pm, p.available = false) :
    selectedProvider pm request preferred = none := by
  have havail : getAvailableProviders pm = [] :=
    filter_eq_nil_of_all pm h
  have hbest : ∀ f : Feature, getBestProvider pm f = none := by
    intro f
    unfold getBestProvider supportingProviders
    rw [havail]
    rfl
  unfold selectedProvider
  cases preferred with
  | none => simp only; exact hbest _
  | some name =>
    simp only
    cases hg : getProvider pm name with
    | some p0 =>
      have hav : p0.available = false := h p0 (getProvider_mem hg)
      have h2 : (match (if p0.available = true then some p0 else none :
          Option Provider) with
        | some q => some q
        | none => getBestProvider pm
            (if request.transparent = true then Feature.logo
             else Feature.generation)) = none := by
        rw [hav]
        simp only [Bool.false_eq_true, if_false]
        exact hbest _
      exact h2
    | none =>
      exact hbest _

/-- A successful result as returned by the provider named two. -/
def okResultTwo : ImageGenerationResult := ⟨true, ["image-two"], "two", "r2", none⟩

/-- Fixture: an available provider supporting every feature whose
generateImage always throws a TIMEOUT-classified error. -/
def pOne : Provider :=
  ⟨"one", true, fun _ => true,
   fun _ => Except.error (createError "TIMEOUT" "slow upstream")⟩

/-- Fixture: an available provider that supports generation but not logo,
and whose generateImage succeeds. -/
def pTwo : Provider :=
  ⟨"two", true,
   fun ft => match ft with
     | Feature.logo => false
     | _ => true,
   fun _ => Except.ok okResultTwo⟩

/-- Fixture: a transparent (logo) generation request. -/
def reqT : ImageGenerationRequest :=
  ⟨"a logo".toList, none, none, none, some 1, none, true⟩

/-- Fixture: an available provider named prov that supports generation but
not logo. -/
def pPref : Provider :=
  ⟨"prov", true,
   fun ft => match ft with
     | Feature.logo => false
     | _ => true,
   fun _ => Except.ok ⟨true, ["image-p"], "prov", "rp", none⟩⟩

/-- Fixture: an unavailable provider. -/
def pDown : Provider :=
  ⟨"down", false, fun _ => true,
   fun _ => Except.error (createError "TIMEOUT" "down")⟩

/-- C3 counterexample: for a transparent request whose primary (logo-capable)
adapter fails, the fallback the orchestrator invokes is selected for the
generation capability only — here it is a provider that does not support the
logo capability required by the request, and its result is returned as a
success, where the claim (fallback supports the request's capability; with
no such fallback, both-fail means a failed result) requires otherwise. -/
theorem managerGenerateImage_fallback_capability_cex :
    reqT.transparent = true ∧
    pTwo.features Feature.logo = false ∧
    (managerGenerateImage [pOne, pTwo] reqT none).2 = ["one", "two"] ∧
    (managerGenerateImage [pOne, pTwo] reqT none).1.success = true := by
  refine ⟨rfl, rfl, ?_, ?_⟩ <;> rfl

/-- C3 amended: generateImage is a total function returning a result (never
throws); it invokes at most two providers; when a second provider is
invoked it is exactly the fallback — the first available provider, different
from the failed one, supporting the generation feature (the feature is
hardcoded to generation, not the request's capability); when every
registered provider's generateImage throws, the result is a failure with a
descriptive error string; and when no provider is available the dedicated
failed result is returned. -/
theorem managerGenerateImage_spec (pm : List Provider)
    (request : ImageGenerationRequest) (preferred : Option String) :
    (managerGenerateImage pm request preferred).2.length ≤ 2 ∧
    (∀ n1 n2, (managerGenerateImage pm request preferred).2 = [n1, n2] →
      ∃ q, getFallbackProvider pm n1 Feature.generation = some q ∧
        q.name = n2 ∧ q.available = true ∧
        q.features Feature.generation = true ∧ q.name ≠ n1) ∧
    ((∀ p ∈ pm, ∃ err, p.generate request = Except.error err) →
      (managerGenerateImage pm request preferred).1.success = false ∧
      (managerGenerateImage pm request preferred).1.error ≠ none) ∧
    ((∀ p ∈ pm, p.available = false) →
      managerGenerateImage pm request preferred = (noProviderResult, [])) := by
  refine ⟨?_, ?_, ?_, ?_⟩
  · unfold managerGenerateImage
    cases hs : selectedProvider pm request preferred with
    | none => simp
    | some p => exact invokeWithFallback_len pm request p
  · intro n1 n2 hpair
    unfold managerGenerateImage at hpair
    cases hs : selectedProvider pm request preferred with
    | none =>
      rw [hs] at hpair
      simp at hpair
    | some p =>
      rw [hs] at hpair
      cases hg : p.generate request with
      | ok r =>
        simp [invokeWithFallback, hg] at hpair
      | error e =>
        cases hf : getFallbackProvider pm p.name Feature.generation with
        | none =>
          simp [invokeWithFallback, hg, hf] at hpair
        | some q =>
          have hnames : p.name = n1 ∧ q.name = n2 := by
            cases hq : q.generate request with
            | ok r =>
              simp [invokeWithFallback, hg, hf, hq] at hpair
              exact hpair
            | error e2 =>
              simp [invokeWithFallback, hg, hf, hq] at hpair
              exact hpair
          obtain ⟨hq1, hq2, hq3, hq4⟩ := getFallbackProvider_spec hf
          refine ⟨q, ?_, hnames.2, hq2, hq3, ?_⟩
          · rw [← hnames.1]
            exact hf
          · rw [← hnames.1]
            exact hq4
  · intro hall
    unfold managerGenerateImage
    cases hs : selectedProvider pm request preferred with
    | none => simp [noProviderResult]
    | some p =>
      have hp : p ∈ pm := selectedProvider_mem hs
      obtain ⟨err, herr⟩ := hall p hp
      cases hf : getFallbackProvider pm p.name Feature.generation with
      | none => simp [invokeWithFallback, herr, hf]
      | some q =>
        have hq : q ∈ pm := (getFallbackProvider_spec hf).1
        obtain ⟨err2, herr2⟩ := hall q hq
        simp [invokeWithFallback, herr, hf, herr2]
  · intro hnav
    unfold managerGenerateImage
    rw [selectedProvider_none_of_unavail hnav]

/-- C3 amended, witness: a registry with a single unavailable provider
yields the dedicated failed result with no provider invoked. -/
theorem managerGenerateImage_spec_witness :
    managerGenerateImage [pDown] reqT none = (noProviderResult, []) := by
  have h := (managerGenerateImage_spec [pDown] reqT none).2.2.2
  apply h
  intro p hp
  have hp2 : p = pDown := by simpa using hp
  rw [hp2]
  rfl

/-- C4 counterexample: a transparent request with a preferred provider that
is available but does not support the logo capability.  The claim requires
the preferred provider to be skipped (it lacks the capability the request
needs) and selection to fall back to the priority-based choice, which here
finds no logo-capable provider at all — yet the orchestrator invokes the
preferred provider anyway: only availability is checked. -/
theorem managerGenerateImage_preferred_capability_cex :
    reqT.transparent = true ∧
    pPref.features Feature.logo = false ∧
    (managerGenerateImage [pPref] reqT (some "prov")).2 = ["prov"] ∧
    getBestProvider [pPref] Feature.logo = none := by
  refine ⟨rfl, rfl, ?_, ?_⟩ <;> rfl

/-- C4 amended: a preferred provider is invoked first exactly when it is
present in the registry and reports itself available; its capabilities are
not consulted.  When it is absent or unavailable, the call behaves exactly
like a call without a preferred provider (priority-based selection for the
logo or generation capability). -/
theorem managerGenerateImage_preferred_spec (pm : List Provider)
    (request : ImageGenerationRequest) (name : String) :
    (∀ p, getProvider pm name = some p → p.available = true →
      (managerGenerateImage pm request (some name)).2.head? = some p.name) ∧
    (∀ p, getProvider pm name = some p → p.available = false →
      managerGenerateImage pm request (some name) =
        managerGenerateImage pm request none) ∧
    (getProvider pm name = none →
      managerGenerateImage pm request (some name) =
        managerGenerateImage pm request none) := by
  have hsel1 : ∀ p, getProvider pm name = some p → p.available = true →
      selectedProvider pm request (some name) = some p := by
    intro p hg hav
    unfold selectedProvider
    simp [hg, hav]
  have hsel2 : ∀ p, getProvider pm name = some p → p.available = false →
      selectedProvider pm request (some name) =
        selectedProvider pm request none := by
    intro p hg hav
    unfold selectedProvider
    simp [hg, hav]
  have hsel3 : getProvider pm name = none →
      selectedProvider pm request (some name) =
        selectedProvider pm request none := by
    intro hg
    unfold selectedProvider
    simp [hg]
  refine ⟨?_, ?_, ?_⟩
  · intro p hg hav
    unfold managerGenerateImage
    rw [hsel1 p hg hav]
    exact invokeWithFallback_head pm request p
  · intro p hg hav
    unfold managerGenerateImage
    rw [hsel2 p hg hav]
  · intro hg
    unfold managerGenerateImage
    rw [hsel3 hg]

/-- C4 amended, witness: the available preferred provider is the first one
invoked. -/
theorem managerGenerateImage_preferred_spec_witness :
    (managerGenerateImage [pPref] reqT (some "prov")).2.head? =
      some "prov" := by
  have h := (managerGenerateImage_preferred_spec [pPref] reqT "prov").1
    pPref rfl rfl
  exact h

theorem retryable_code_not_client {e : PErr}
    (hcode : isRetryableByCode e.code = true) (hst : e.status = none) :
    isClientError e = false := by
  have h2 : e.code = "TIMEOUT" ∨ e.code = "SERVICE_UNAVAILABLE" ∨
      e.code = "NETWORK_ERROR" ∨ e.code = "RATE_LIMIT_EXCEEDED" := by
    simpa [isRetryableByCode] using hcode
  unfold isClientError
  rw [hst]
  rcases h2 with h | h | h | h <;> rw [h] <;> decide

/-- C2: an operation that always fails with a retryable error (one of the
four retryable-by-code codes, no HTTP response attached) is invoked exactly
maxAttempts = 3 times, with a sleep of baseDelay * 2 ^ (n - 1) milliseconds
after failed attempt n for n = 1, 2, and the wrapper then fails with an
OPERATION_FAILED error wrapping the last error. -/
theorem executeWithRetry_retryable_exhausts {α : Type}
    (op : Nat → Except PErr α) (operationName : String) (e : Nat → PErr)
    (hop : ∀ n, op n = Except.error (e n))
    (hcode : ∀ n, isRetryableByCode (e n).code = true)
    (hst : ∀ n, (e n).status = none) :
    (executeWithRetry op operationName).calls = 3 ∧
    (executeWithRetry op operationName).delays =
      [1000 * 2 ^ 0, 1000 * 2 ^ 1] ∧
    (executeWithRetry op operationName).result =
      Except.error (opFailedErr operationName 3 (some (e 3))) := by
  have hnc : ∀ n, isClientError (e n) = false :=
    fun n => retryable_code_not_client (hcode n) (hst n)
  have e3 : ewrAux op operationName 3 1000 3 1 =
      ⟨Except.error (opFailedErr operationName 3 (some (e 3))), 1, []⟩ := by
    rw [ewrAux, hop 3]
    simp [hnc 3]
  have e2 : ewrAux op operationName 3 1000 2 2 =
      ⟨Except.error (opFailedErr operationName 3 (some (e 3))), 2,
        [1000 * 2 ^ 1]⟩ := by
    show ewrAux op operationName 3 1000 2 (1 + 1) = _
    rw [ewrAux, hop 2]
    simp [hnc 2, e3]
  have e1 : ewrAux op operationName 3 1000 1 3 =
      ⟨Except.error (opFailedErr operationName 3 (some (e 3))), 3,
        [1000 * 2 ^ 0, 1000 * 2 ^ 1]⟩ := by
    show ewrAux op operationName 3 1000 1 (2 + 1) = _
    rw [ewrAux, hop 1]
    simp [hnc 1, e2]
  have hw : executeWithRetry op operationName =
      ewrAux op operationName 3 1000 1 3 := rfl
  rw [hw, e1]
  exact ⟨rfl, by norm_num, rfl⟩

/-- Fixture: a TIMEOUT-classified provider error. -/
def eTimeout : PErr := createError "TIMEOUT" "request timed out"

/-- C2 witness. -/
theorem executeWithRetry_retryable_exhausts_witness :
    (executeWithRetry (fun _ => (Except.error eTimeout : Except PErr Unit))
      "generate image").calls = 3 ∧
    (executeWithRetry (fun _ => (Except.error eTimeout : Except PErr Unit))
      "generate image").delays = [1000 * 2 ^ 0, 1000 * 2 ^ 1] ∧
    (executeWithRetry (fun _ => (Except.error eTimeout : Except PErr Unit))
      "generate image").result =
      Except.error (opFailedErr "generate image" 3 (some eTimeout)) :=
  executeWithRetry_retryable_exhausts _ _ (fun _ => eTimeout)
    (fun _ => rfl) (fun _ => rfl) (fun _ => rfl)

/-- Fixture: a GENERATION_FAILED provider error — outside the
retryable-by-code set, with no HTTP response status and no retryable
override. -/
def eGenFail : PErr := createError "GENERATION_FAILED" "backend exploded"

/-- C1 counterexample: GENERATION_FAILED is not retryable by code, yet
executeWithRetry invokes an operation always failing with it 3 times
instead of failing immediately after the first attempt: the wrapper
consults isClientError, not the taxonomy's retryable-by-code rule. -/
theorem executeWithRetry_taxonomy_not_consulted_cex :
    isRetryableByCode eGenFail.code = false ∧
    isClientError eGenFail = false ∧
    (executeWithRetry (fun _ => (Except.error eGenFail : Except PErr Unit))
      "generate image").calls = 3 := by
  exact ⟨by decide, by decide, by rfl⟩

/-- C1 amended: the rule the wrapper consults for immediate failure is
isClientError — HTTP 4xx response status or a code among INVALID_REQUEST,
AUTHENTICATION_FAILED, PERMISSION_DENIED, QUOTA_EXCEEDED,
CONTENT_POLICY_VIOLATION.  A first-attempt failure that is a client error
stops the wrapper at once with the error rethrown; a first-attempt failure
that is not a client error is retried (a second invocation happens) even
when its code is outside the retryable-by-code set. -/
theorem executeWithRetry_client_error_policy {α : Type}
    (op : Nat → Except PErr α) (operationName : String) (e : PErr)
    (hop : op 1 = Except.error e) :
    (isClientError e = true →
      executeWithRetry op operationName = ⟨Except.error e, 1, []⟩) ∧
    (isClientError e = false →
      2 ≤ (executeWithRetry op operationName).calls) := by
  constructor
  · intro hce
    exact ewrAux_client_stop op operationName 3 1000 1 2 e hop hce
  · intro hce
    have hpos := ewrAux_calls_pos op operationName 3 1000 2 1
    have hstep : (executeWithRetry op operationName).calls =
        (ewrAux op operationName 3 1000 2 2).calls + 1 := by
      show (ewrAux op operationName 3 1000 1 (2 + 1)).calls = _
      rw [ewrAux, hop]
      simp [hce]
    rw [hstep]
    have hpos2 : 1 ≤ (ewrAux op operationName 3 1000 2 2).calls := hpos
    omega

/-- Fixture: a CONTENT_POLICY_VIOLATION provider error (a client error). -/
def eContentPolicy : PErr :=
  createError "CONTENT_POLICY_VIOLATION" "content policy violation"

/-- C1 amended, witness. -/
theorem executeWithRetry_client_error_policy_witness :
    executeWithRetry
      (fun _ => (Except.error eContentPolicy : Except PErr Unit))
      "generate image" = ⟨Except.error eContentPolicy, 1, []⟩ :=
  (executeWithRetry_client_error_policy _ _ _ rfl).1 (by decide)

/-- C8: an operation whose failure carries code INVALID_REQUEST is invoked
exactly once — the wrapper rethrows the error immediately, with no retry
and no sleep. -/
theorem executeWithRetry_invalid_request_once {α : Type}
    (op : Nat → Except PErr α) (operationName : String) (e : PErr)
    (hop : op 1 = Except.error e) (hcode : e.code = "INVALID_REQUEST") :
    executeWithRetry op operationName = ⟨Except.error e, 1, []⟩ := by
  have hc5 : (["INVALID_REQUEST", "AUTHENTICATION_FAILED",
      "PERMISSION_DENIED", "QUOTA_EXCEEDED",
      "CONTENT_POLICY_VIOLATION"].contains "INVALID_REQUEST") = true := by
    decide
  have hce : isClientError e = true := by
    unfold isClientError
    rw [hcode, hc5]
    simp
  exact ewrAux_client_stop op operationName 3 1000 1 2 e hop hce

/-- Fixture: an INVALID_REQUEST provider error. -/
def eInvalidReq : PErr :=
  createError "INVALID_REQUEST" "Count must be between 1 and 10"

/-- C8 witness. -/
theorem executeWithRetry_invalid_request_once_witness :
    executeWithRetry
      (fun _ => (Except.error eInvalidReq : Except PErr Unit))
      "generate image" = ⟨Except.error eInvalidReq, 1, []⟩ :=
  executeWithRetry_invalid_request_once _ _ _ rfl rfl

theorem validateCount_code {request : ImageGenerationRequest} {e : PErr}
    (h : validateCount request = some e) : e.code = "INVALID_REQUEST" := by
  unfold validateCount at h
  cases hc : request.count with
  | none => rw [hc] at h; exact absurd h (by simp)
  | some k =>
    rw [hc] at h
    have h2 : (if k ≠ 0 ∧ (k < 1 ∨ k > 10) then
        some (createError "INVALID_REQUEST" "Count must be between 1 and 10")
      else none) = some e := h
    by_cases h3 : k ≠ 0 ∧ (k < 1 ∨ k > 10)
    · rw [if_pos h3] at h2
      injection h2 with h2
      rw [← h2]
      rfl
    · rw [if_neg h3] at h2
      exact absurd h2 (by simp)

theorem validateRequest_dims_invalid (request : ImageGenerationRequest)
    {w h : Nat} (hdim : request.dimensions = some (w, h))
    (hbad : w < 64 ∨ 2048 < w ∨ h < 64 ∨ 2048 < h ∨ 4 * w < h ∨
      4 * h < w) :
    ∃ e, validateRequest request = some e ∧ e.code = "INVALID_REQUEST" := by
  unfold validateRequest
  by_cases h1 : request.prompt = [] ∨ jsTrim request.prompt = []
  · rw [if_pos h1]
    exact ⟨_, rfl, rfl⟩
  · rw [if_neg h1]
    by_cases h2 : request.prompt.length > 4000
    · rw [if_pos h2]
      exact ⟨_, rfl, rfl⟩
    · rw [if_neg h2]
      cases hvc : validateCount request with
      | some e =>
        exact ⟨e, by simp [hvc], validateCount_code hvc⟩
      | none =>
        simp only [hvc]
        unfold validateDims
        rw [hdim]
        show ∃ e, (if w < 64 ∨ w > 2048 ∨ h < 64 ∨ h > 2048 then
            some (createError "INVALID_REQUEST"
              "Dimensions must be between 64x64 and 2048x2048")
          else if 4 * w < h ∨ w > 4 * h then
            some (createError "INVALID_REQUEST"
              "Invalid aspect ratio (must be between 1:4 and 4:1)")
          else none) = some e ∧ e.code = "INVALID_REQUEST"
        by_cases h4 : w < 64 ∨ w > 2048 ∨ h < 64 ∨ h > 2048
        · rw [if_pos h4]
          exact ⟨_, rfl, rfl⟩
        · rw [if_neg h4]
          have h5 : 4 * w < h ∨ w > 4 * h := by omega
          rw [if_pos h5]
          exact ⟨_, rfl, rfl⟩

/-- C6: for a configured adapter, a request whose dimensions violate the
[64, 2048] bounds or the [1:4, 4:1] aspect-ratio bounds fails with an
INVALID_REQUEST error before any network call — the wrapped backend
operation is invoked zero times. -/
theorem chatGptGenerateImage_invalid_dims
    (request : ImageGenerationRequest)
    (backend : Nat → Except PErr ImageGenerationResult) {w h : Nat}
    (hdim : request.dimensions = some (w, h))
    (hbad : w < 64 ∨ 2048 < w ∨ h < 64 ∨ 2048 < h ∨ 4 * w < h ∨
      4 * h < w) :
    ∃ e, (chatGptGenerateImage true request backend).1 = Except.error e ∧
      e.code = "INVALID_REQUEST" ∧
      (chatGptGenerateImage true request backend).2 = 0 := by
  obtain ⟨e, hv, hc⟩ := validateRequest_dims_invalid request hdim hbad
  refine ⟨e, ?_, hc, ?_⟩ <;> simp [chatGptGenerateImage, hv]

/-- Fixture: Scenario D, a request with width 4000. -/
def reqWide : ImageGenerationRequest :=
  ⟨"a red bicycle".toList, none, some (4000, 512), none, some 1, none, false⟩

/-- C6 witness: Scenario D, width 4000 fails fast. -/
theorem chatGptGenerateImage_invalid_dims_witness :
    ∃ e, (chatGptGenerateImage true reqWide
        (fun _ => Except.ok okResultTwo)).1 = Except.error e ∧
      e.code = "INVALID_REQUEST" ∧
      (chatGptGenerateImage true reqWide
        (fun _ => Except.ok okResultTwo)).2 = 0 :=
  chatGptGenerateImage_invalid_dims reqWide _ rfl (by omega)

/-- C7, code-bug evidence: the shared validator accepts count = 0 (the JS
truthiness guard request.count && ... skips the range check for the falsy
value 0), while counts 11 and -1 are rejected as the claim requires. -/
theorem validateRequest_count_zero_accepted :
    validateRequest
      ⟨"a red bicycle".toList, none, none, none, some 0, none, false⟩ =
      none ∧
    (validateRequest
      ⟨"a red bicycle".toList, none, none, none, some 11, none,
        false⟩).isSome = true ∧
    (validateRequest
      ⟨"a red bicycle".toList, none, none, none, some (-1), none,
        false⟩).isSome = true := by
  refine ⟨?_, ?_, ?_⟩ <;> rfl

/-- C9 (cache modelled from the spec): after cache.set at time now with the
given TTL, cache.get at time t returns exactly the stored result while
t ≤ now + TTL and absent afterwards; get is a total function and never
throws. -/
theorem cacheSet_cacheGet_roundtrip (c : List CacheEntry) (now ttl : Nat)
    (request : ImageGenerationRequest) (result : ImageGenerationResult)
    (t : Nat) :
    cacheGet (cacheSet c now ttl request result) t request =
      if t ≤ now + ttl then some result else none := by
  unfold cacheGet cacheSet
  simp [List.find?]

/-- C5 witness: the first supporting provider is picked when no priority
name matches, and it is available and supports the feature. -/
theorem getBestProvider_spec_witness :
    pOne.available = true ∧ pOne.features Feature.generation = true :=
  (getBestProvider_spec [pOne, pTwo] Feature.generation).1 pOne rfl

end ImageForMe
